import Mathlib

/-!
A shallow embedding of the training-data pipeline of `src/medaka/inference.py`
(label encoding, train/validation split, bounded batch queue), together with
theorems checking the specification claims against it.
-/

namespace Medaka

/-- Python exception outcomes of the embedded code. `indexError` models a bare
`IndexError: list index out of range`, `typeError` a `TypeError`, `keyError` a
`KeyError`, and `valueError` a `ValueError` together with its message. -/
inductive PyErr where
  | indexError
  | typeError
  | keyError
  | valueError (msg : String)
deriving DecidableEq, Repr

/-- Raw label values: either a `(base, run_length)` integer pair or a text
token, mirroring the two label layouts handled by `inference.py` (see the
comment at line 313 of the source). -/
inductive RawLabel where
  | tup (base run : Nat)
  | str (s : String)
deriving DecidableEq, Repr

/-- Whether a raw label is a `(base, run_length)` pair; the model of the
Python test `type(old_labels[0]) == tuple`. -/
def RawLabel.isTup : RawLabel → Bool
  | .tup _ _ => true
  | .str _ => false

/-- String repetition, the model of the Python expression `n * s`. -/
def pyRepeat (n : Nat) (s : String) : String := String.join (List.replicate n s)

/-- Upper-casing, the model of the Python method `str.upper` on the ASCII
symbol strings held by the `decoding` table (written as a character map so
that it evaluates by kernel reduction; `String.toUpper` is the same
function). -/
def pyUpper (s : String) : String := String.mk (s.data.map Char.toUpper)

/-- Insert a string into a strictly sorted list, skipping duplicates. -/
def insertSD (x : String) : List String → List String
  | [] => [x]
  | y :: ys => if x < y then x :: y :: ys else if x = y then y :: ys else y :: insertSD x ys

/-- The strictly sorted, duplicate-free list of the elements of `xs`: the
model of the Python expression `list(sorted(set(xs)))` at line 641. -/
def sortedNub (xs : List String) : List String := xs.foldr insertSD []

theorem mem_insertSD {a x : String} : ∀ {l : List String}, a ∈ insertSD x l ↔ a = x ∨ a ∈ l := by
  intro l
  induction l with
  | nil => simp [insertSD]
  | cons y ys ih =>
    by_cases h1 : x < y
    · have he : insertSD x (y :: ys) = x :: y :: ys := by simp [insertSD, h1]
      rw [he]
      exact List.mem_cons
    · by_cases h2 : x = y
      · have he : insertSD x (y :: ys) = y :: ys := by simp [insertSD, h1, h2]
        rw [he]
        constructor
        · exact fun h => Or.inr h
        · rintro (rfl | h)
          · rw [h2]; exact List.mem_cons_self _ _
          · exact h
      · have he : insertSD x (y :: ys) = y :: insertSD x ys := by simp [insertSD, h1, h2]
        rw [he]
        simp only [List.mem_cons, ih]
        tauto

theorem pairwise_insertSD {x : String} : ∀ {l : List String},
    l.Pairwise (· < ·) → (insertSD x l).Pairwise (· < ·) := by
  intro l
  induction l with
  | nil => intro _; simp [insertSD]
  | cons y ys ih =>
    intro hp
    rcases List.pairwise_cons.mp hp with ⟨hy, hys⟩
    by_cases h1 : x < y
    · have he : insertSD x (y :: ys) = x :: y :: ys := by simp [insertSD, h1]
      rw [he]
      refine List.pairwise_cons.mpr ⟨?_, hp⟩
      intro b hb
      rcases List.mem_cons.mp hb with rfl | hb
      · exact h1
      · exact lt_trans h1 (hy b hb)
    · by_cases h2 : x = y
      · have he : insertSD x (y :: ys) = y :: ys := by simp [insertSD, h1, h2]
        rw [he]; exact hp
      · have hyx : y < x := lt_of_le_of_ne (le_of_not_lt h1) (fun he => h2 he.symm)
        have he : insertSD x (y :: ys) = y :: insertSD x ys := by simp [insertSD, h1, h2]
        rw [he]
        refine List.pairwise_cons.mpr ⟨?_, ih hys⟩
        intro b hb
        rcases mem_insertSD.mp hb with rfl | hb
        · exact hyx
        · exact hy b hb

theorem pairwise_sortedNub : ∀ xs : List String, (sortedNub xs).Pairwise (· < ·) := by
  intro xs
  induction xs with
  | nil => simp [sortedNub]
  | cons x xs ih => exact pairwise_insertSD ih

theorem mem_sortedNub {a : String} : ∀ {xs : List String}, a ∈ sortedNub xs ↔ a ∈ xs := by
  intro xs
  induction xs with
  | nil => simp [sortedNub]
  | cons x xs ih =>
    show a ∈ insertSD x (sortedNub xs) ↔ _
    rw [mem_insertSD]
    simp [ih]

/-- First index of `v` in a list: the model of Python `list.index`, which
raises `ValueError` when the value is absent (hence the `Option`). -/
def pyIndex (v : String) : List String → Option Nat
  | [] => none
  | x :: xs => if x = v then some 0 else (pyIndex v xs).map (· + 1)

theorem pyIndex_eq_none {v : String} : ∀ {l : List String}, pyIndex v l = none ↔ v ∉ l := by
  intro l
  induction l with
  | nil => simp [pyIndex]
  | cons x xs ih =>
    by_cases h : x = v
    · simp [pyIndex, h]
    · simp only [pyIndex, if_neg h, Option.map_eq_none', ih, List.mem_cons]
      constructor
      · intro hn hm
        rcases hm with rfl | hm
        · exact h rfl
        · exact hn hm
      · intro hn hm
        exact hn (Or.inr hm)

theorem pyIndex_get {v : String} : ∀ {l : List String} {i : Nat},
    pyIndex v l = some i → l[i]? = some v := by
  intro l
  induction l with
  | nil => intro i h; simp [pyIndex] at h
  | cons x xs ih =>
    intro i h
    by_cases hx : x = v
    · simp only [pyIndex, if_pos hx, Option.some.injEq] at h
      subst h
      simp [hx]
    · simp only [pyIndex, if_neg hx, Option.map_eq_some'] at h
      rcases h with ⟨j, hj, rfl⟩
      simpa using ih hj

/-- Association-list lookup: the model of a Python dict read, which raises
`KeyError` when the key is absent (hence the `Option`). -/
def alookup {κ β : Type} [DecidableEq κ] (k : κ) : List (κ × β) → Option β
  | [] => none
  | kv :: rest => if k = kv.1 then some kv.2 else alookup k rest

theorem alookup_zip_map {κ β : Type} [DecidableEq κ] (h : κ → β) :
    ∀ {l : List κ} {k : κ}, k ∈ l → alookup k (l.zip (l.map h)) = some (h k) := by
  intro l
  induction l with
  | nil => intro k hk; simp at hk
  | cons x xs ih =>
    intro k hk
    by_cases he : k = x
    · subst he
      simp [alookup]
    · rcases List.mem_cons.mp hk with rfl | hk2
      · exact absurd rfl he
      · show alookup k ((x, h x) :: xs.zip (xs.map h)) = some (h k)
        simp only [alookup, if_neg he]
        exact ih hk2

theorem alookup_map_pair {κ β : Type} [DecidableEq κ] (h : κ → β) :
    ∀ {l : List κ} {k : κ}, k ∈ l → alookup k (l.map (fun a => (a, h a))) = some (h k) := by
  intro l
  induction l with
  | nil => intro k hk; simp at hk
  | cons x xs ih =>
    intro k hk
    by_cases he : k = x
    · subst he
      simp [alookup]
    · rcases List.mem_cons.mp hk with rfl | hk2
      · exact absurd rfl he
      · show alookup k ((x, h x) :: xs.map (fun a => (a, h a))) = some (h k)
        simp only [alookup, if_neg he]
        exact ih hk2

/-- Sequencing of a fallible map over a list, first error wins: the model of
a Python list comprehension or iteration whose body may raise. -/
def mapE {α β : Type} (f : α → Except PyErr β) : List α → Except PyErr (List β)
  | [] => .ok []
  | x :: xs =>
    match f x with
    | .error e => .error e
    | .ok y =>
      match mapE f xs with
      | .error e => .error e
      | .ok ys => .ok (y :: ys)

theorem mapE_ok_of {α β : Type} (f : α → Except PyErr β) (g : α → β) :
    ∀ xs : List α, (∀ a ∈ xs, f a = .ok (g a)) → mapE f xs = .ok (xs.map g) := by
  intro xs
  induction xs with
  | nil => intro _; rfl
  | cons x xs ih =>
    intro h
    have hx := h x (List.mem_cons_self x xs)
    have hxs := ih (fun a ha => h a (List.mem_cons_of_mem x ha))
    simp [mapE, hx, hxs]

/-- Sum of the counts of a count table. -/
def sumSnd {κ : Type} (l : List (κ × Nat)) : Nat := (l.map Prod.snd).sum

/-- Add `c` to the entry of key `k`: the model of `new_counts[k] += c` on a
`Counter` (line 649). -/
def bump : List (Nat × Nat) → Nat → Nat → List (Nat × Nat)
  | [], k, c => [(k, c)]
  | kv :: rest, k, c => if kv.1 = k then (kv.1, kv.2 + c) :: rest else kv :: bump rest k c

theorem sumSnd_bump : ∀ (m : List (Nat × Nat)) (k c : Nat),
    sumSnd (bump m k c) = sumSnd m + c := by
  intro m
  induction m with
  | nil => intro k c; simp [bump, sumSnd]
  | cons kv rest ih =>
    intro k c
    by_cases h : kv.1 = k
    · simp only [bump, if_pos h, sumSnd, List.map_cons, List.sum_cons]
      omega
    · simp only [bump, if_neg h, sumSnd, List.map_cons, List.sum_cons]
      have := ih k c
      simp only [sumSnd] at this
      omega

/-- One step of the label-expansion comprehension of `process_labels`
(lines 632-635): with `isTup` the result of the Python test
`type(old_labels[0]) == tuple`, a `(base, run_length)` pair maps to
`run_length * decoding[base].upper()` and a text token maps to itself.
A mixed-type list (a label of the other shape reaching the branch chosen by
the first label) raises in Python in shape-dependent ways; it is modelled
uniformly as a `TypeError` and is excluded by the homogeneity hypothesis of
every theorem below. `dec` is the `decoding` table imported from
`medaka.common`, passed as a parameter. -/
def expandOne (dec : Nat → String) (isTup : Bool) : RawLabel → Except PyErr String
  | .tup b r => if isTup then .ok (pyRepeat r (pyUpper (dec b))) else .error .typeError
  | .str s => if isTup then .error .typeError else .ok s

/-- The pure expansion of a raw label, agreeing with `expandOne` whenever the
branch flag matches the label shape. -/
def expandPure (dec : Nat → String) : RawLabel → String
  | .tup b r => pyRepeat r (pyUpper (dec b))
  | .str s => s

/-- Proof-side abbreviation: the truncated expanded form of a raw label under
maximum label length `m`. -/
def truncExpand (dec : Nat → String) (m : Nat) (l : RawLabel) : String :=
  (expandPure dec l).take m

/-- One entry of the `label_encoding` dict comprehension (line 642):
`label_decoding.index(old_to_new[l])`. A missing dict key raises `KeyError`;
a value absent from the list raises `ValueError` (message abbreviated here,
Python includes the repr of the value). -/
def encodeOne (old_to_new : List (RawLabel × String)) (label_decoding : List String)
    (l : RawLabel) : Except PyErr (RawLabel × Nat) :=
  match alookup l old_to_new with
  | none => .error .keyError
  | some v =>
    match pyIndex v label_decoding with
    | none => .error (.valueError "is not in list")
    | some i => .ok (l, i)

/-- The `new_counts` accumulation loop of `process_labels` (lines 647-649):
for each raw label, add its original count to the entry of its integer code.
The Python loop iterates `old_labels` and reads `label_counts[l]`; iterating
the pairs directly is the same thing for a dict (distinct keys). -/
def mkNewCountsAux (enc : List (RawLabel × Nat)) :
    List (Nat × Nat) → List (RawLabel × Nat) → Except PyErr (List (Nat × Nat))
  | acc, [] => .ok acc
  | acc, (l, c) :: rest =>
    match alookup l enc with
    | none => .error .keyError
    | some k => mkNewCountsAux enc (bump acc k c) rest

/-- The pure counterpart of `mkNewCountsAux` when every lookup succeeds. -/
def mkCountsPure (idx : RawLabel → Nat) :
    List (Nat × Nat) → List (RawLabel × Nat) → List (Nat × Nat)
  | acc, [] => acc
  | acc, (l, c) :: rest => mkCountsPure idx (bump acc (idx l) c) rest

/-- The embedding of `process_labels` (lines 618-652 of
`src/medaka/inference.py`). The input count mapping is an association list
with the dict iteration order; `max_label_len = none` models the unlimited
setting `np.inf`, for which the comparison `max_label_len < np.inf` at line
637 is false and no truncation list is built. In the tuple branch
`new_labels` is a generator expression; when the truncation step does not
materialise it into a list, the generator is exhausted by `dict(zip(...))`
at line 640, so the later `set(new_labels)` at line 641 sees it empty —
`newsForSet` reproduces exactly that. (Passing Python `None` for an
unlimited length instead raises `TypeError` at line 637; that path is not
modelled.) -/
def process_labels (dec : Nat → String) (label_counts : List (RawLabel × Nat))
    (max_label_len : Option Nat) :
    Except PyErr (List (RawLabel × Nat) × List String × List (Nat × Nat)) :=
  let old_labels := label_counts.map Prod.fst
  match old_labels.head? with
  | none => .error .indexError
  | some first =>
    let isTup := first.isTup
    match mapE (expandOne dec isTup) old_labels with
    | .error e => .error e
    | .ok news =>
      let newsT :=
        match max_label_len with
        | some m => news.map (fun s => s.take m)
        | none => news
      let newsForSet := if isTup && max_label_len.isNone then [] else newsT
      let old_to_new := old_labels.zip newsT
      let label_decoding := sortedNub newsForSet
      match mapE (encodeOne old_to_new label_decoding) old_labels with
      | .error e => .error e
      | .ok label_encoding =>
        match mkNewCountsAux label_encoding [] label_counts with
        | .error e => .error e
        | .ok new_counts => .ok (label_encoding, label_decoding, new_counts)

/-- The labels of a count mapping all have the shape of the first one: the
implicit precondition of the branch at line 632. -/
def homogeneous (ls : List RawLabel) : Prop :=
  (∀ l ∈ ls, l.isTup = true) ∨ (∀ l ∈ ls, l.isTup = false)

instance decHomogeneous (ls : List RawLabel) : Decidable (homogeneous ls) :=
  inferInstanceAs (Decidable ((∀ l ∈ ls, l.isTup = true) ∨ (∀ l ∈ ls, l.isTup = false)))

/-- The label decoding produced from a key list under maximum length `m`:
the sorted set of truncated expanded labels. -/
def decodingOf (dec : Nat → String) (m : Nat) (olds : List RawLabel) : List String :=
  sortedNub (olds.map (truncExpand dec m))

/-- The integer code a raw label receives: the index of its truncated
expanded form in the decoding list. -/
def idxOf (dec : Nat → String) (m : Nat) (olds : List RawLabel) (l : RawLabel) : Nat :=
  (pyIndex (truncExpand dec m l) (decodingOf dec m olds)).getD 0

theorem expandOne_eq_ok {dec : Nat → String} {t : Bool} {l : RawLabel} (h : l.isTup = t) :
    expandOne dec t l = .ok (expandPure dec l) := by
  cases l with
  | tup b r => cases h; simp [expandOne, expandPure, RawLabel.isTup]
  | str s => cases h; simp [expandOne, expandPure, RawLabel.isTup]

theorem encodeOne_eq_ok (dec : Nat → String) (m : Nat) (olds : List RawLabel) {l : RawLabel}
    (hl : l ∈ olds) :
    encodeOne (olds.zip (olds.map (truncExpand dec m))) (decodingOf dec m olds) l =
      .ok (l, idxOf dec m olds l) := by
  have h1 := alookup_zip_map (truncExpand dec m) hl
  have hmem : truncExpand dec m l ∈ decodingOf dec m olds :=
    mem_sortedNub.mpr (List.mem_map_of_mem _ hl)
  simp only [encodeOne, h1]
  cases hpi : pyIndex (truncExpand dec m l) (decodingOf dec m olds) with
  | none => exact absurd hmem (pyIndex_eq_none.mp hpi)
  | some i => simp [idxOf, hpi]

theorem mkNewCountsAux_eq {enc : List (RawLabel × Nat)} {idx : RawLabel → Nat} :
    ∀ (pairs : List (RawLabel × Nat)) (acc : List (Nat × Nat)),
      (∀ p ∈ pairs, alookup p.1 enc = some (idx p.1)) →
      mkNewCountsAux enc acc pairs = .ok (mkCountsPure idx acc pairs) := by
  intro pairs
  induction pairs with
  | nil => intro acc _; rfl
  | cons p rest ih =>
    intro acc h
    obtain ⟨l, c⟩ := p
    have hp := h (l, c) (List.mem_cons_self _ _)
    simp only at hp
    simp only [mkNewCountsAux, hp, mkCountsPure]
    exact ih _ (fun q hq => h q (List.mem_cons_of_mem _ hq))

theorem sumSnd_mkCountsPure (idx : RawLabel → Nat) :
    ∀ (pairs : List (RawLabel × Nat)) (acc : List (Nat × Nat)),
      sumSnd (mkCountsPure idx acc pairs) = sumSnd acc + sumSnd pairs := by
  intro pairs
  induction pairs with
  | nil => intro acc; simp [mkCountsPure, sumSnd]
  | cons p rest ih =>
    intro acc
    obtain ⟨l, c⟩ := p
    simp only [mkCountsPure]
    rw [ih, sumSnd_bump]
    simp only [sumSnd, List.map_cons, List.sum_cons]
    omega

theorem process_labels_spec (dec : Nat → String) (lc : List (RawLabel × Nat)) (m : Nat)
    (hne : lc ≠ []) (hhom : homogeneous (lc.map Prod.fst)) :
    process_labels dec lc (some m) = .ok
      ((lc.map Prod.fst).map (fun l => (l, idxOf dec m (lc.map Prod.fst) l)),
       decodingOf dec m (lc.map Prod.fst),
       mkCountsPure (idxOf dec m (lc.map Prod.fst)) [] lc) := by
  obtain ⟨l0, os, holds⟩ : ∃ l0 os, lc.map Prod.fst = l0 :: os := by
    cases lc with
    | nil => exact absurd rfl hne
    | cons p rest => exact ⟨p.1, rest.map Prod.fst, rfl⟩
  have hflag : ∀ l ∈ lc.map Prod.fst, l.isTup = l0.isTup := by
    intro l hl
    have h0 : l0 ∈ lc.map Prod.fst := by rw [holds]; exact List.mem_cons_self _ _
    rcases hhom with h | h
    · rw [h l hl, h l0 h0]
    · rw [h l hl, h l0 h0]
  have hexp : mapE (expandOne dec l0.isTup) (lc.map Prod.fst) =
      .ok ((lc.map Prod.fst).map (expandPure dec)) :=
    mapE_ok_of _ _ _ (fun a ha => expandOne_eq_ok (hflag a ha))
  have hmapmap : ((lc.map Prod.fst).map (expandPure dec)).map (fun s => s.take m) =
      (lc.map Prod.fst).map (truncExpand dec m) := by
    rw [List.map_map]
    rfl
  have henc : mapE (encodeOne ((lc.map Prod.fst).zip ((lc.map Prod.fst).map (truncExpand dec m)))
        (decodingOf dec m (lc.map Prod.fst))) (lc.map Prod.fst) =
      .ok ((lc.map Prod.fst).map (fun l => (l, idxOf dec m (lc.map Prod.fst) l))) :=
    mapE_ok_of _ _ _ (fun a ha => encodeOne_eq_ok dec m _ ha)
  have hcnt : mkNewCountsAux
        ((lc.map Prod.fst).map (fun l => (l, idxOf dec m (lc.map Prod.fst) l))) [] lc =
      .ok (mkCountsPure (idxOf dec m (lc.map Prod.fst)) [] lc) := by
    refine mkNewCountsAux_eq lc [] ?_
    intro p hp
    exact alookup_map_pair _ (List.mem_map_of_mem Prod.fst hp)
  rw [holds] at hexp hmapmap henc hcnt
  simp only [decodingOf] at henc
  simp only [process_labels, holds, List.head?_cons, hexp, Option.isNone_some,
    Bool.and_false, Bool.false_eq_true, if_false, hmapmap, decodingOf, henc, hcnt]

/-- C2: for every non-empty label-count mapping (distinct keys, labels all of
the shape of the first) and finite maximum label length, `process_labels`
succeeds, the returned `label_decoding` is strictly sorted — hence sorted and
duplicate-free — and for every raw label `l` of the input,
`label_decoding[label_encoding[l]]` is the truncated expanded form of `l`:
the upper-cased decoded symbol repeated `run_length` times for tuple labels,
the string itself otherwise, cut to the maximum length. -/
theorem C2_label_roundtrip (dec : Nat → String) (lc : List (RawLabel × Nat)) (m : Nat)
    (hne : lc ≠ []) (hnd : (lc.map Prod.fst).Nodup) (hhom : homogeneous (lc.map Prod.fst)) :
    ∃ enc decd cnts, process_labels dec lc (some m) = .ok (enc, decd, cnts) ∧
      decd.Pairwise (· < ·) ∧ decd.Nodup ∧
      ∀ l ∈ lc.map Prod.fst, ∃ i, alookup l enc = some i ∧
        decd[i]? = some ((expandPure dec l).take m) := by
  clear hnd
  refine ⟨_, _, _, process_labels_spec dec lc m hne hhom, ?_, ?_, ?_⟩
  · exact pairwise_sortedNub _
  · exact (pairwise_sortedNub _).imp ne_of_lt
  · intro l hl
    refine ⟨idxOf dec m (lc.map Prod.fst) l, alookup_map_pair _ hl, ?_⟩
    have hmem : truncExpand dec m l ∈ decodingOf dec m (lc.map Prod.fst) :=
      mem_sortedNub.mpr (List.mem_map_of_mem _ hl)
    cases hpi : pyIndex (truncExpand dec m l) (decodingOf dec m (lc.map Prod.fst)) with
    | none => exact absurd hmem (pyIndex_eq_none.mp hpi)
    | some i =>
      have hg := pyIndex_get hpi
      have hidx : idxOf dec m (lc.map Prod.fst) l = i := by simp [idxOf, hpi]
      rw [hidx]
      simpa [truncExpand] using hg

/-- C2 witness: the concrete scenario of the spec, label counts
`A:3, AA:2, AAA:1` with maximum length 2. -/
theorem C2_label_roundtrip_witness :
    ([((RawLabel.str "A"), 3), ((RawLabel.str "AA"), 2), ((RawLabel.str "AAA"), 1)] ≠
        ([] : List (RawLabel × Nat))) ∧
    (([((RawLabel.str "A"), 3), ((RawLabel.str "AA"), 2),
        ((RawLabel.str "AAA"), 1)].map Prod.fst).Nodup) ∧
    homogeneous ([((RawLabel.str "A"), 3), ((RawLabel.str "AA"), 2),
        ((RawLabel.str "AAA"), 1)].map Prod.fst) ∧
    (∃ enc decd cnts,
      process_labels (fun _ => "a")
          [((RawLabel.str "A"), 3), ((RawLabel.str "AA"), 2), ((RawLabel.str "AAA"), 1)]
          (some 2) = .ok (enc, decd, cnts) ∧
      decd.Pairwise (· < ·) ∧ decd.Nodup ∧
      ∀ l ∈ [((RawLabel.str "A"), 3), ((RawLabel.str "AA"), 2),
          ((RawLabel.str "AAA"), 1)].map Prod.fst, ∃ i, alookup l enc = some i ∧
        decd[i]? = some ((expandPure (fun _ => "a") l).take 2)) :=
  ⟨by decide, by decide, by decide,
    C2_label_roundtrip (fun _ => "a") _ 2 (by decide) (by decide) (by decide)⟩

/-- C3: for every non-empty label-count mapping (distinct keys, labels all of
the shape of the first) and finite maximum label length, the sum of counts
in the recomputed label-count mapping returned by `process_labels` equals
the sum of counts of the input mapping. -/
theorem C3_count_conservation (dec : Nat → String) (lc : List (RawLabel × Nat)) (m : Nat)
    (hne : lc ≠ []) (hnd : (lc.map Prod.fst).Nodup) (hhom : homogeneous (lc.map Prod.fst)) :
    ∃ enc decd cnts, process_labels dec lc (some m) = .ok (enc, decd, cnts) ∧
      sumSnd cnts = sumSnd lc := by
  clear hnd
  refine ⟨_, _, _, process_labels_spec dec lc m hne hhom, ?_⟩
  rw [sumSnd_mkCountsPure]
  simp [sumSnd]

/-- C3 witness: labels `A` and `AA` truncated at length 1 collapse to one
code; the total count is conserved. -/
theorem C3_count_conservation_witness :
    ([((RawLabel.str "A"), 3), ((RawLabel.str "AA"), 2)] ≠ ([] : List (RawLabel × Nat))) ∧
    (([((RawLabel.str "A"), 3), ((RawLabel.str "AA"), 2)].map Prod.fst).Nodup) ∧
    homogeneous ([((RawLabel.str "A"), 3), ((RawLabel.str "AA"), 2)].map Prod.fst) ∧
    (∃ enc decd cnts,
      process_labels (fun _ => "a") [((RawLabel.str "A"), 3), ((RawLabel.str "AA"), 2)]
          (some 1) = .ok (enc, decd, cnts) ∧
      sumSnd cnts = sumSnd [((RawLabel.str "A"), 3), ((RawLabel.str "AA"), 2)]) :=
  ⟨by decide, by decide, by decide,
    C3_count_conservation (fun _ => "a") _ 1 (by decide) (by decide) (by decide)⟩

/-- C7 counterexample: on the empty label-count mapping, `process_labels`
fails with the generic `IndexError` of `old_labels[0]` (line 632), carrying
no message about labels — not the descriptive error the claim states. -/
theorem C7_counterexample :
    process_labels (fun _ => "a") [] (some 10) = .error .indexError := rfl

/-- C7 amended: on the empty label-count mapping, `process_labels` does fail
fast — before producing any encoding — but with the generic, unattributable
`IndexError` from indexing the empty key list rather than a descriptive
error. -/
theorem C7_amended_fail_fast_generic (dec : Nat → String) (mll : Option Nat) :
    process_labels dec [] mll = .error .indexError := rfl

/-- C7 witness: a concrete instantiation of the amended statement. -/
theorem C7_amended_fail_fast_generic_witness :
    process_labels (fun _ => "b") [] (some 3) = .error .indexError :=
  C7_amended_fail_fast_generic (fun _ => "b") (some 3)

/-- C10 (code bug): with tuple run-length labels and an unlimited maximum
label length (`np.inf`), `process_labels` raises `ValueError` instead of
running untruncated: in the tuple branch `new_labels` is a generator
expression, and with no truncation step materialising it, it is exhausted by
`dict(zip(...))` at line 640, so `set(new_labels)` at line 641 is empty,
`label_decoding` is `[]`, and `label_decoding.index(...)` at line 642
raises. The same input processes successfully under a finite maximum
length. -/
theorem C10_unlimited_length_fails :
    process_labels (fun _ => "a") [((RawLabel.tup 0 2), 3)] none =
        .error (.valueError "is not in list") ∧
    ∃ r, process_labels (fun _ => "a") [((RawLabel.tup 0 2), 3)] (some 10) = .ok r := by
  refine ⟨?_, ([((RawLabel.tup 0 2), 0)], ["AA"], [(0, 3)]), ?_⟩
  · rfl
  · rfl

/-- Modelled from the spec: `grouper` from `medaka.common` is not under
`src/`. Spec section 4.3(b) describes it: partition a list into consecutive
groups of `batch_size`, the last group possibly short. The `[]` result for a
zero batch size is only a totality guard; batch size is positive
throughout. -/
def grouper {α : Type} (bs : Nat) (xs : List α) : List (List α) :=
  match xs, bs with
  | [], _ => []
  | _ :: _, 0 => []
  | x :: rest, b + 1 => ((x :: rest).take (b + 1)) :: grouper (b + 1) ((x :: rest).drop (b + 1))
termination_by xs.length
decreasing_by
  simp only [List.length_drop, List.length_cons]
  omega

theorem grouper_nil {α : Type} (bs : Nat) : grouper bs ([] : List α) = [] := by
  simp [grouper]

theorem grouper_cons {α : Type} (b : Nat) (x : α) (rest : List α) :
    grouper (b + 1) (x :: rest) =
      ((x :: rest).take (b + 1)) :: grouper (b + 1) ((x :: rest).drop (b + 1)) := by
  rw [grouper]

theorem grouper_join {α : Type} (b : Nat) :
    ∀ xs : List α, (grouper (b + 1) xs).flatten = xs := by
  have main : ∀ n, ∀ xs : List α, xs.length = n → (grouper (b + 1) xs).flatten = xs := by
    intro n
    induction n using Nat.strong_induction_on with
    | _ n ih =>
      intro xs hlen
      cases xs with
      | nil => simp [grouper_nil]
      | cons x rest =>
        rw [grouper_cons, List.flatten_cons]
        have hd : ((x :: rest).drop (b + 1)).length < n := by
          subst hlen
          simp only [List.length_drop, List.length_cons]
          omega
        rw [ih _ hd _ rfl]
        exact List.take_append_drop _ _
  exact fun xs => main xs.length xs rfl

theorem ceil_div_succ (L b : Nat) :
    ((L + 1) - (b + 1) + (b + 1) - 1) / (b + 1) + 1 = ((L + 1) + (b + 1) - 1) / (b + 1) := by
  rcases le_or_lt (L + 1) (b + 1) with h | h
  · have h1 : (L + 1) - (b + 1) = 0 := by omega
    have h2 : 0 + (b + 1) - 1 = b := by omega
    have h3 : (L + 1) + (b + 1) - 1 = L + (b + 1) := by omega
    rw [h1, h2, h3, Nat.add_div_right _ (Nat.succ_pos b)]
    have h4 : b / (b + 1) = 0 := Nat.div_eq_of_lt (by omega)
    have h5 : L / (b + 1) = 0 := Nat.div_eq_of_lt (by omega)
    rw [h4, h5]
  · have h1 : (L + 1) - (b + 1) + (b + 1) - 1 = L := by omega
    have h2 : (L + 1) + (b + 1) - 1 = L + (b + 1) := by omega
    rw [h1, h2, Nat.add_div_right _ (Nat.succ_pos b)]

theorem grouper_length {α : Type} (b : Nat) :
    ∀ xs : List α, (grouper (b + 1) xs).length = (xs.length + (b + 1) - 1) / (b + 1) := by
  have main : ∀ n, ∀ xs : List α, xs.length = n →
      (grouper (b + 1) xs).length = (xs.length + (b + 1) - 1) / (b + 1) := by
    intro n
    induction n using Nat.strong_induction_on with
    | _ n ih =>
      intro xs hlen
      cases xs with
      | nil =>
        simp only [grouper_nil, List.length_nil]
        rw [Nat.div_eq_of_lt (by omega)]
      | cons x rest =>
        rw [grouper_cons]
        have hd : ((x :: rest).drop (b + 1)).length < n := by
          subst hlen
          simp only [List.length_drop, List.length_cons]
          omega
        simp only [List.length_cons]
        rw [ih _ hd _ rfl]
        simp only [List.length_drop, List.length_cons]
        exact ceil_div_succ rest.length b
  exact fun xs => main xs.length xs rfl

theorem grouper_mem_le {α : Type} (b : Nat) :
    ∀ xs : List α, ∀ g ∈ grouper (b + 1) xs, g.length ≤ b + 1 := by
  have main : ∀ n, ∀ xs : List α, xs.length = n →
      ∀ g ∈ grouper (b + 1) xs, g.length ≤ b + 1 := by
    intro n
    induction n using Nat.strong_induction_on with
    | _ n ih =>
      intro xs hlen
      cases xs with
      | nil => simp [grouper_nil]
      | cons x rest =>
        rw [grouper_cons]
        intro g hg
        rcases List.mem_cons.mp hg with rfl | hg2
        · simp only [List.length_take]
          omega
        · have hd : ((x :: rest).drop (b + 1)).length < n := by
            subst hlen
            simp only [List.length_drop, List.length_cons]
            omega
          exact ih _ hd _ rfl g hg2
  exact fun xs => main xs.length xs rfl

theorem grouper_mem_ne_nil {α : Type} (b : Nat) :
    ∀ xs : List α, ∀ g ∈ grouper (b + 1) xs, g ≠ [] := by
  have main : ∀ n, ∀ xs : List α, xs.length = n →
      ∀ g ∈ grouper (b + 1) xs, g ≠ [] := by
    intro n
    induction n using Nat.strong_induction_on with
    | _ n ih =>
      intro xs hlen
      cases xs with
      | nil => simp [grouper_nil]
      | cons x rest =>
        rw [grouper_cons]
        intro g hg
        rcases List.mem_cons.mp hg with rfl | hg2
        · simp
        · have hd : ((x :: rest).drop (b + 1)).length < n := by
            subst hlen
            simp only [List.length_drop, List.length_cons]
            omega
          exact ih _ hd _ rfl g hg2
  exact fun xs => main xs.length xs rfl

theorem grouper_dropLast_length {α : Type} (b : Nat) :
    ∀ xs : List α, ∀ g ∈ (grouper (b + 1) xs).dropLast, g.length = b + 1 := by
  have main : ∀ n, ∀ xs : List α, xs.length = n →
      ∀ g ∈ (grouper (b + 1) xs).dropLast, g.length = b + 1 := by
    intro n
    induction n using Nat.strong_induction_on with
    | _ n ih =>
      intro xs hlen
      cases xs with
      | nil => simp [grouper_nil]
      | cons x rest =>
        rw [grouper_cons]
        have hd : ((x :: rest).drop (b + 1)).length < n := by
          subst hlen
          simp only [List.length_drop, List.length_cons]
          omega
        cases htail : grouper (b + 1) ((x :: rest).drop (b + 1)) with
        | nil => simp
        | cons c cs =>
          rw [List.dropLast_cons₂]
          intro g hg
          rcases List.mem_cons.mp hg with rfl | hg2
          · have hne : (x :: rest).drop (b + 1) ≠ [] := by
              intro hemp
              rw [hemp, grouper_nil] at htail
              exact List.cons_ne_nil c cs htail.symm
            have hlong : b + 1 < (x :: rest).length := by
              by_contra hle
              push_neg at hle
              exact hne (List.drop_eq_nil_of_le hle)
            simp only [List.length_take]
            omega
          · have hih := ih _ hd _ rfl g
            rw [htail] at hih
            exact hih hg2
  exact fun xs => main xs.length xs rfl

/-- A sample reference: `(sample_key, source_file)`, resolvable only through
the sample store. -/
abbrev SampleRef := String × String

/-- One epoch of `BatchQueue._fill_queue` (lines 381-400): shuffle the sample
list in place, then partition it into consecutive batches (lines 386-387).
The per-sample transform and tensor stacking map each group one-to-one
preserving order, so sample accounting is stated on the groups. The in-place
`np.random.shuffle` under the generator seeded at construction is modelled
as a permutation-producing function passed as a parameter. -/
def fillQueueEpochBatches (shuffle : Nat → List SampleRef → List SampleRef) (seed : Nat)
    (samples : List SampleRef) (batch_size : Nat) : List (List SampleRef) :=
  grouper batch_size (shuffle seed samples)

/-- C1: for one full epoch produced by `BatchQueue._fill_queue` over a sample
list of size N with positive batch size B (the shuffle being a permutation),
the emitted batches partition the shuffled list — their concatenation is the
shuffled list, hence a permutation of the input split, so every sample
appears exactly once — the number of batches is ceil(N/B) (written
(N + B - 1) / B and characterised by the two inequalities), every batch
except possibly the last has exactly B samples, and every batch has at most
B samples and is non-empty. -/
theorem C1_epoch_partition (shuffle : Nat → List SampleRef → List SampleRef) (seed : Nat)
    (samples : List SampleRef) (bs : Nat) (hbs : 0 < bs)
    (hperm : (shuffle seed samples).Perm samples) :
    (fillQueueEpochBatches shuffle seed samples bs).flatten = shuffle seed samples ∧
    (fillQueueEpochBatches shuffle seed samples bs).flatten.Perm samples ∧
    (fillQueueEpochBatches shuffle seed samples bs).length =
      (samples.length + bs - 1) / bs ∧
    samples.length ≤ bs * (fillQueueEpochBatches shuffle seed samples bs).length ∧
    bs * (fillQueueEpochBatches shuffle seed samples bs).length < samples.length + bs ∧
    (∀ g ∈ (fillQueueEpochBatches shuffle seed samples bs).dropLast, g.length = bs) ∧
    (∀ g ∈ fillQueueEpochBatches shuffle seed samples bs, g.length ≤ bs ∧ g ≠ []) := by
  obtain ⟨b, rfl⟩ : ∃ b, bs = b + 1 := ⟨bs - 1, by omega⟩
  simp only [fillQueueEpochBatches]
  have hlen : (shuffle seed samples).length = samples.length := hperm.length_eq
  have h1 := grouper_join b (shuffle seed samples)
  have h2 := grouper_length b (shuffle seed samples)
  rw [hlen] at h2
  have he : samples.length + (b + 1) - 1 = samples.length + b := by omega
  rw [he] at h2
  have hdm := Nat.div_add_mod (samples.length + b) (b + 1)
  have hmod : (samples.length + b) % (b + 1) < b + 1 := Nat.mod_lt _ (Nat.succ_pos b)
  refine ⟨h1, ?_, ?_, ?_, ?_, ?_, ?_⟩
  · rw [h1]
    exact hperm
  · rw [he]
    exact h2
  · rw [h2]
    set M := (b + 1) * ((samples.length + b) / (b + 1)) with hM
    clear hM
    omega
  · rw [h2]
    set M := (b + 1) * ((samples.length + b) / (b + 1)) with hM
    clear hM
    omega
  · exact grouper_dropLast_length b (shuffle seed samples)
  · intro g hg
    exact ⟨grouper_mem_le b _ g hg, grouper_mem_ne_nil b _ g hg⟩

/-- C1 witness: three samples, batch size two, reversal as the shuffle. -/
theorem C1_epoch_partition_witness :
    0 < 2 ∧
    ((fun (_ : Nat) (l : List SampleRef) => l.reverse) 0
        [("a", "f"), ("b", "f"), ("c", "f")]).Perm [("a", "f"), ("b", "f"), ("c", "f")] ∧
    ((fillQueueEpochBatches (fun _ l => l.reverse) 0
          [("a", "f"), ("b", "f"), ("c", "f")] 2).flatten =
        (fun (_ : Nat) (l : List SampleRef) => l.reverse) 0
          [("a", "f"), ("b", "f"), ("c", "f")] ∧
      (fillQueueEpochBatches (fun _ l => l.reverse) 0
          [("a", "f"), ("b", "f"), ("c", "f")] 2).flatten.Perm
        [("a", "f"), ("b", "f"), ("c", "f")] ∧
      (fillQueueEpochBatches (fun _ l => l.reverse) 0
          [("a", "f"), ("b", "f"), ("c", "f")] 2).length =
        (([("a", "f"), ("b", "f"), ("c", "f")] : List SampleRef).length + 2 - 1) / 2 ∧
      ([("a", "f"), ("b", "f"), ("c", "f")] : List SampleRef).length ≤
        2 * (fillQueueEpochBatches (fun _ l => l.reverse) 0
          [("a", "f"), ("b", "f"), ("c", "f")] 2).length ∧
      2 * (fillQueueEpochBatches (fun _ l => l.reverse) 0
          [("a", "f"), ("b", "f"), ("c", "f")] 2).length <
        ([("a", "f"), ("b", "f"), ("c", "f")] : List SampleRef).length + 2 ∧
      (∀ g ∈ (fillQueueEpochBatches (fun _ l => l.reverse) 0
          [("a", "f"), ("b", "f"), ("c", "f")] 2).dropLast, g.length = 2) ∧
      (∀ g ∈ fillQueueEpochBatches (fun _ l => l.reverse) 0
          [("a", "f"), ("b", "f"), ("c", "f")] 2, g.length ≤ 2 ∧ g ≠ [])) :=
  ⟨by decide, by decide,
    C1_epoch_partition (fun _ l => l.reverse) 0 [("a", "f"), ("b", "f"), ("c", "f")] 2
      (by decide) (by decide)⟩

/-- The fractional train/validation split of `TrainBatcher.__init__`
(lines 245-250): seed the pseudo-random generator, shuffle the sample list
in place, take the first `int((1 - validation) * len(samples))` samples for
training and the remainder for validation. The seeded `np.random.shuffle`
is modelled as a function of the seed and the list, which is exactly what
seeding makes it; Python `int()` on a non-negative value is the integer
floor, and the fraction is modelled as the exact rational. -/
def fracSplit (shuffle : Nat → List SampleRef → List SampleRef) (seed : Nat)
    (validation : ℚ) (samples : List SampleRef) : List SampleRef × List SampleRef :=
  let shuffled := shuffle seed samples
  let n_sample_train := (⌊(1 - validation) * (samples.length : ℚ)⌋).toNat
  (shuffled.take n_sample_train, shuffled.drop n_sample_train)

/-- C4: for every validation fraction in (0,1), seed and sample list (the
seeded shuffle being a permutation), the split takes the first
floor((1 - fraction) * N) samples of the shuffled list as training and the
remainder as validation — together they are exactly the shuffled list, with
the stated lengths — and a second run with the same seed and the same input
order produces the identical partition. -/
theorem C4_fractional_split (shuffle : Nat → List SampleRef → List SampleRef) (seed : Nat)
    (f : ℚ) (samples : List SampleRef) (h0 : 0 < f) (h1 : f < 1)
    (hperm : (shuffle seed samples).Perm samples) :
    (fracSplit shuffle seed f samples).1 =
      (shuffle seed samples).take (⌊(1 - f) * (samples.length : ℚ)⌋).toNat ∧
    (fracSplit shuffle seed f samples).2 =
      (shuffle seed samples).drop (⌊(1 - f) * (samples.length : ℚ)⌋).toNat ∧
    (fracSplit shuffle seed f samples).1 ++ (fracSplit shuffle seed f samples).2 =
      shuffle seed samples ∧
    (fracSplit shuffle seed f samples).1.length =
      (⌊(1 - f) * (samples.length : ℚ)⌋).toNat ∧
    (fracSplit shuffle seed f samples).2.length =
      samples.length - (⌊(1 - f) * (samples.length : ℚ)⌋).toNat ∧
    (∀ seed2 samples2, seed2 = seed → samples2 = samples →
      fracSplit shuffle seed2 f samples2 = fracSplit shuffle seed f samples) := by
  have hn : (⌊(1 - f) * (samples.length : ℚ)⌋).toNat ≤ samples.length := by
    have hle : (1 - f) * (samples.length : ℚ) ≤ (samples.length : ℚ) := by
      have hN : (0 : ℚ) ≤ (samples.length : ℚ) := Nat.cast_nonneg _
      nlinarith
    have hfl : ⌊(1 - f) * (samples.length : ℚ)⌋ ≤ ⌊(samples.length : ℚ)⌋ :=
      Int.floor_le_floor hle
    rw [Int.floor_natCast] at hfl
    omega
  have hslen : (shuffle seed samples).length = samples.length := hperm.length_eq
  refine ⟨rfl, rfl, List.take_append_drop _ _, ?_, ?_, ?_⟩
  · show ((shuffle seed samples).take _).length = _
    rw [List.length_take, hslen]
    omega
  · show ((shuffle seed samples).drop _).length = _
    rw [List.length_drop, hslen]
  · intro seed2 samples2 hs2 hl2
    rw [hs2, hl2]

/-- C4 witness: a five-sample list, fraction one fifth, reversal as the
shuffle: four training samples and one validation sample. -/
theorem C4_fractional_split_witness :
    (0 : ℚ) < 1 / 5 ∧ (1 : ℚ) / 5 < 1 ∧
    ((fun (_ : Nat) (l : List SampleRef) => l.reverse) 7
        [("a", "f"), ("b", "f"), ("c", "f"), ("d", "f"), ("e", "f")]).Perm
      [("a", "f"), ("b", "f"), ("c", "f"), ("d", "f"), ("e", "f")] ∧
    ((fracSplit (fun _ l => l.reverse) 7 (1 / 5)
          [("a", "f"), ("b", "f"), ("c", "f"), ("d", "f"), ("e", "f")]).1 =
        ((fun (_ : Nat) (l : List SampleRef) => l.reverse) 7
            [("a", "f"), ("b", "f"), ("c", "f"), ("d", "f"), ("e", "f")]).take
          (⌊(1 - 1 / 5 : ℚ) *
            (([("a", "f"), ("b", "f"), ("c", "f"), ("d", "f"), ("e", "f")] :
              List SampleRef).length : ℚ)⌋).toNat ∧
      (fracSplit (fun _ l => l.reverse) 7 (1 / 5)
          [("a", "f"), ("b", "f"), ("c", "f"), ("d", "f"), ("e", "f")]).2 =
        ((fun (_ : Nat) (l : List SampleRef) => l.reverse) 7
            [("a", "f"), ("b", "f"), ("c", "f"), ("d", "f"), ("e", "f")]).drop
          (⌊(1 - 1 / 5 : ℚ) *
            (([("a", "f"), ("b", "f"), ("c", "f"), ("d", "f"), ("e", "f")] :
              List SampleRef).length : ℚ)⌋).toNat ∧
      (fracSplit (fun _ l => l.reverse) 7 (1 / 5)
            [("a", "f"), ("b", "f"), ("c", "f"), ("d", "f"), ("e", "f")]).1 ++
          (fracSplit (fun _ l => l.reverse) 7 (1 / 5)
            [("a", "f"), ("b", "f"), ("c", "f"), ("d", "f"), ("e", "f")]).2 =
        (fun (_ : Nat) (l : List SampleRef) => l.reverse) 7
          [("a", "f"), ("b", "f"), ("c", "f"), ("d", "f"), ("e", "f")] ∧
      (fracSplit (fun _ l => l.reverse) 7 (1 / 5)
          [("a", "f"), ("b", "f"), ("c", "f"), ("d", "f"), ("e", "f")]).1.length =
        (⌊(1 - 1 / 5 : ℚ) *
          (([("a", "f"), ("b", "f"), ("c", "f"), ("d", "f"), ("e", "f")] :
            List SampleRef).length : ℚ)⌋).toNat ∧
      (fracSplit (fun _ l => l.reverse) 7 (1 / 5)
          [("a", "f"), ("b", "f"), ("c", "f"), ("d", "f"), ("e", "f")]).2.length =
        ([("a", "f"), ("b", "f"), ("c", "f"), ("d", "f"), ("e", "f")] :
            List SampleRef).length -
          (⌊(1 - 1 / 5 : ℚ) *
            (([("a", "f"), ("b", "f"), ("c", "f"), ("d", "f"), ("e", "f")] :
              List SampleRef).length : ℚ)⌋).toNat ∧
      (∀ seed2 samples2, seed2 = 7 →
        samples2 = ([("a", "f"), ("b", "f"), ("c", "f"), ("d", "f"), ("e", "f")] :
          List SampleRef) →
        fracSplit (fun _ l => l.reverse) seed2 (1 / 5) samples2 =
          fracSplit (fun _ l => l.reverse) 7 (1 / 5)
            [("a", "f"), ("b", "f"), ("c", "f"), ("d", "f"), ("e", "f")])) :=
  ⟨by norm_num, by norm_num, by decide,
    C4_fractional_split (fun _ l => l.reverse) 7 (1 / 5)
      [("a", "f"), ("b", "f"), ("c", "f"), ("d", "f"), ("e", "f")]
      (by norm_num) (by norm_num) (by decide)⟩

/-- The construction results of `TrainBatcher.__init__` relevant to the
claims: the two splits, the per-split batch counts, the two queue
capacities, and the label metadata. -/
structure InitResult where
  train_samples : List SampleRef
  valid_samples : List SampleRef
  n_train_batches : Nat
  n_valid_batches : Nat
  train_maxsize : Nat
  valid_maxsize : Nat
  label_encoding : List (RawLabel × Nat)
  label_decoding : List String
  label_counts : List (Nat × Nat)
deriving DecidableEq, Repr

/-- The fractional-validation construction path of `TrainBatcher.__init__`
(lines 234-292), restricted to the operations the claims concern: the probe
of `self.samples[0]` at line 240 (a bare `IndexError` on an empty sample
list), the fractional split (lines 245-250), the per-split batch counts
`ceil(len / batch_size)` of lines 260-261 (written `(len + bs - 1) / bs`,
equal to the ceiling for positive batch size), the label processing of line
277 and the queue capacities `min(2 * n_batches, 100)` passed to the two
`BatchQueue` constructions at lines 285-292. Logging, the feature-shape
probe result and the worker partial application carry no failure modes
relevant to the claims and are omitted. Note what is absent, faithfully to
the source: no check anywhere that either split is non-empty. -/
def trainBatcherInit (dec : Nat → String) (shuffle : Nat → List SampleRef → List SampleRef)
    (samples : List SampleRef) (max_label_len : Option Nat)
    (label_counts : List (RawLabel × Nat)) (validation : ℚ) (seed : Nat)
    (batch_size : Nat) : Except PyErr InitResult :=
  match samples.head? with
  | none => .error .indexError
  | some _ =>
    let split := fracSplit shuffle seed validation samples
    let n_train_batches := (split.1.length + batch_size - 1) / batch_size
    let n_valid_batches := (split.2.length + batch_size - 1) / batch_size
    match process_labels dec label_counts max_label_len with
    | .error e => .error e
    | .ok (enc, decd, cnts) =>
      .ok { train_samples := split.1
            valid_samples := split.2
            n_train_batches := n_train_batches
            n_valid_batches := n_valid_batches
            train_maxsize := min (2 * n_train_batches) 100
            valid_maxsize := min (2 * n_valid_batches) 100
            label_encoding := enc
            label_decoding := decd
            label_counts := cnts }

/-- C5 counterexample: one sample with validation fraction one fifth yields
zero training samples, yet construction succeeds — no configuration error is
raised, and both queues would be started, the empty side with
`maxsize = min(0, 100) = 0`, which the Python queue treats as unbounded. -/
theorem C5_counterexample :
    trainBatcherInit (fun _ => "a") (fun _ l => l) [("k1", "f1")] (some 10)
        [((RawLabel.str "x"), 2)] (1 / 5) 0 500 =
      .ok { train_samples := []
            valid_samples := [("k1", "f1")]
            n_train_batches := 0
            n_valid_batches := 1
            train_maxsize := 0
            valid_maxsize := 2
            label_encoding := [((RawLabel.str "x"), 0)]
            label_decoding := ["x"]
            label_counts := [(0, 2)] } := by
  have hfl : (⌊(1 - 1 / 5 : ℚ) * (([("k1", "f1")] : List SampleRef).length : ℚ)⌋).toNat = 0 := by
    norm_num
  simp only [trainBatcherInit, fracSplit, hfl]
  rfl

/-- C5 amended: `TrainBatcher.__init__` performs no split non-emptiness
validation: whenever the sample list itself is non-empty (so the
`samples[0]` probe succeeds) and label processing succeeds, construction
completes and both queues are created even if the training or the
validation split is empty; no configuration error is raised before the
queues start. -/
theorem C5_amended_no_empty_split_check (dec : Nat → String)
    (shuffle : Nat → List SampleRef → List SampleRef) (samples : List SampleRef)
    (mll : Option Nat) (lc : List (RawLabel × Nat)) (validation : ℚ) (seed : Nat)
    (bs : Nat) (z : List (RawLabel × Nat) × List String × List (Nat × Nat))
    (hs : samples ≠ []) (hl : process_labels dec lc mll = .ok z) :
    ∃ r, trainBatcherInit dec shuffle samples mll lc validation seed bs = .ok r ∧
      r.train_samples = (fracSplit shuffle seed validation samples).1 ∧
      r.valid_samples = (fracSplit shuffle seed validation samples).2 := by
  obtain ⟨s0, srest, rfl⟩ : ∃ s0 srest, samples = s0 :: srest := by
    cases samples with
    | nil => exact absurd rfl hs
    | cons a l => exact ⟨a, l, rfl⟩
  obtain ⟨enc, decd, cnts⟩ := z
  refine ⟨{ train_samples := (fracSplit shuffle seed validation (s0 :: srest)).1
            valid_samples := (fracSplit shuffle seed validation (s0 :: srest)).2
            n_train_batches :=
              ((fracSplit shuffle seed validation (s0 :: srest)).1.length + bs - 1) / bs
            n_valid_batches :=
              ((fracSplit shuffle seed validation (s0 :: srest)).2.length + bs - 1) / bs
            train_maxsize :=
              min (2 * (((fracSplit shuffle seed validation (s0 :: srest)).1.length + bs - 1) / bs))
                100
            valid_maxsize :=
              min (2 * (((fracSplit shuffle seed validation (s0 :: srest)).2.length + bs - 1) / bs))
                100
            label_encoding := enc
            label_decoding := decd
            label_counts := cnts }, ?_, rfl, rfl⟩
  simp only [trainBatcherInit, List.head?_cons, hl]

/-- C5 witness: two-sample list with fraction one half: the training side of
the split is empty (floor of one half is zero), yet construction returns
successfully. -/
theorem C5_amended_no_empty_split_check_witness :
    ([("k", "f")] : List SampleRef) ≠ [] ∧
    process_labels (fun _ => "a") [((RawLabel.str "x"), 1)] (some 10) =
      .ok ([((RawLabel.str "x"), 0)], ["x"], [(0, 1)]) ∧
    (∃ r, trainBatcherInit (fun _ => "a") (fun _ l => l) [("k", "f")] (some 10)
        [((RawLabel.str "x"), 1)] (1 / 2) 0 4 = .ok r ∧
      r.train_samples = (fracSplit (fun _ l => l) 0 (1 / 2) [("k", "f")]).1 ∧
      r.valid_samples = (fracSplit (fun _ l => l) 0 (1 / 2) [("k", "f")]).2) :=
  ⟨by decide, rfl,
    C5_amended_no_empty_split_check (fun _ => "a") (fun _ l => l) [("k", "f")] (some 10)
      [((RawLabel.str "x"), 1)] (1 / 2) 0 4 ([((RawLabel.str "x"), 0)], ["x"], [(0, 1)])
      (by decide) rfl⟩

/-- A loaded sample as returned by the sample store: a feature tensor of
abstract type and an optional raw label sequence. -/
structure LoadedSample (φ : Type) where
  features : φ
  labels : Option (List RawLabel)

/-- The truncation bound `min(max_label_len, n)`; `none` models the
unlimited `np.inf`, whose minimum with anything is the other argument. -/
def minTrunc (mll : Option Nat) (n : Nat) : Nat :=
  match mll with
  | some m => min m n
  | none => n

/-- The embedding of `TrainBatcher.sample_to_x_y` (lines 295-325): load the
sample from its store (the store modelled as a function), raise
`ValueError("Cannot train without labels.")` when labels are absent
(lines 310-311), otherwise encode every label after truncation, branching
on the type of the first label (lines 313-320); a label of the other shape
in the chosen branch is modelled as `TypeError` as in `expandOne`. The
final reshape to a column vector and the optional one-hot expansion
(lines 321-324) act after the encodings and are omitted; the result keeps
the encoded class indices in order. -/
def sample_to_x_y {φ : Type} (store : SampleRef → LoadedSample φ) (mll : Option Nat)
    (label_encoding : List (RawLabel × Nat)) (sample : SampleRef) :
    Except PyErr (φ × List Nat) :=
  let s := store sample
  match s.labels with
  | none => .error (.valueError "Cannot train without labels.")
  | some labels =>
    match labels.head? with
    | none => .error .indexError
    | some (.str _) =>
      match mapE (fun l =>
        match l with
        | .str t =>
          match alookup (RawLabel.str (t.take (minTrunc mll t.length))) label_encoding with
          | some c => .ok c
          | none => .error .keyError
        | .tup _ _ => .error .typeError) labels with
      | .error e => .error e
      | .ok ys => .ok (s.features, ys)
    | some (.tup _ _) =>
      match mapE (fun l =>
        match l with
        | .tup b r =>
          match alookup (RawLabel.tup b (minTrunc mll r)) label_encoding with
          | some c => .ok c
          | none => .error .keyError
        | .str _ => .error .typeError) labels with
      | .error e => .error e
      | .ok ys => .ok (s.features, ys)

/-- A store on which every sample is missing its labels. -/
def storeNoLabels : SampleRef → LoadedSample Unit :=
  fun _ => { features := (), labels := none }

/-- C6 counterexample: two different sample references both missing labels
produce literally identical errors — the fixed message
`Cannot train without labels.` — so the error raised by `sample_to_x_y`
does not identify the offending sample reference, contrary to the claim. -/
theorem C6_counterexample :
    (("kA", "fA") : SampleRef) ≠ ("kB", "fB") ∧
    sample_to_x_y storeNoLabels (some 10) [] ("kA", "fA") =
      .error (.valueError "Cannot train without labels.") ∧
    sample_to_x_y storeNoLabels (some 10) [] ("kB", "fB") =
      .error (.valueError "Cannot train without labels.") ∧
    sample_to_x_y storeNoLabels (some 10) [] ("kA", "fA") =
      sample_to_x_y storeNoLabels (some 10) [] ("kB", "fB") :=
  ⟨by decide, rfl, rfl, rfl⟩

/-- C6 amended: a sample whose loaded record has no labels makes
`sample_to_x_y` fail with the explicit error
`ValueError("Cannot train without labels.")` — the sample is not silently
skipped — but the message is a constant that does not identify the
offending sample reference. -/
theorem C6_amended_missing_label_error {φ : Type} (store : SampleRef → LoadedSample φ)
    (mll : Option Nat) (enc : List (RawLabel × Nat)) (sample : SampleRef)
    (h : (store sample).labels = none) :
    sample_to_x_y store mll enc sample =
      .error (.valueError "Cannot train without labels.") := by
  simp only [sample_to_x_y, h]

/-- C6 witness: the all-labels-missing store at a concrete reference. -/
theorem C6_amended_missing_label_error_witness :
    (storeNoLabels ("kA", "fA")).labels = none ∧
    sample_to_x_y storeNoLabels (some 10) [] ("kA", "fA") =
      .error (.valueError "Cannot train without labels.") :=
  ⟨rfl, C6_amended_missing_label_error storeNoLabels (some 10) [] ("kA", "fA") rfl⟩

/-- A Python value as tested for truthiness by `if`: either a plain boolean,
or a bound method object, which is always truthy. -/
inductive PyAttr where
  | boundMethod
  | boolVal (b : Bool)

/-- Truthiness of a Python value under `if`. -/
def PyAttr.truthy : PyAttr → Bool
  | .boundMethod => true
  | .boolVal b => b

/-- The observable outcome of `BatchQueue.stop`. -/
structure StopResult where
  joinTimeoutSeconds : Nat
  loggedDidNotTerminate : Bool
  raisedException : Bool
deriving DecidableEq, Repr

/-- The embedding of `BatchQueue.stop` (lines 372-378): set the stop event,
join the driver thread with a two-second timeout, then test
`self.qthread.is_alive` — an attribute reference without a call, evaluating
to the bound method object — and log the critical
`Read thread did not terminate.` message when that value is truthy. The
parameter records whether the thread is actually still alive after the
join; the code never consults it, which is the bug. -/
def stopModel (threadAliveAfterJoin : Bool) : StopResult :=
  let _ := threadAliveAfterJoin
  let livenessTest := PyAttr.boundMethod
  { joinTimeoutSeconds := 2
    loggedDidNotTerminate := livenessTest.truthy
    raisedException := false }

/-- C8 (code bug): `stop` joins the driver with the bounded two-second
timeout and always returns normally without raising, but the fault
`Read thread did not terminate.` is logged unconditionally — also when the
thread terminated within the timeout — because line 377 tests the bound
method object `self.qthread.is_alive` instead of calling it, and a method
object is always truthy. The claimed logged-iff-still-alive equivalence is
therefore false in its only-if direction. -/
theorem C8_stop_logs_unconditionally :
    ∀ threadAliveAfterJoin : Bool,
      (stopModel threadAliveAfterJoin).loggedDidNotTerminate = true ∧
      (stopModel threadAliveAfterJoin).raisedException = false ∧
      (stopModel threadAliveAfterJoin).joinTimeoutSeconds = 2 := by
  intro a
  exact ⟨rfl, rfl, rfl⟩

/-- C8 witness: the failing instance, a thread that did terminate within the
timeout. -/
theorem C8_stop_logs_unconditionally_witness :
    (stopModel false).loggedDidNotTerminate = true ∧
    (stopModel false).raisedException = false ∧
    (stopModel false).joinTimeoutSeconds = 2 :=
  C8_stop_logs_unconditionally false

/-- The queue-related state of one `BatchQueue`: the batches of the current
epoch still to be produced, and the pending batches sitting in the bounded
queue. -/
structure QState (β : Type) where
  pending : List β
  buf : List β

/-- One interleaving step of the batch queue system of
`BatchQueue._fill_queue` (producer) and `yield_batches` (consumer) under
the semantics of `queue.Queue(maxsize)`: the driver may insert the next
batch only when the queue is below capacity (a maxsize of zero means
unbounded in Python, hence the first disjunct), blocking otherwise; the
consumer may remove the front batch when the queue is non-empty; at an
epoch boundary the driver reshuffles and starts the next pass — the
reshuffle changes batch contents, not their number, so the refill reuses
the epoch batch list. -/
inductive QStep {β : Type} (eb : List β) (cap : Nat) : QState β → QState β → Prop
  | put {b : β} {p buf : List β} (h : cap = 0 ∨ buf.length < cap) :
      QStep eb cap ⟨b :: p, buf⟩ ⟨p, buf ++ [b]⟩
  | get {b : β} {p rest : List β} : QStep eb cap ⟨p, b :: rest⟩ ⟨p, rest⟩
  | newEpoch {buf : List β} : QStep eb cap ⟨[], buf⟩ ⟨eb, buf⟩

/-- The states reachable from the start of the first epoch with an empty
queue. -/
inductive QReach {β : Type} (eb : List β) (cap : Nat) : QState β → Prop
  | init : QReach eb cap ⟨eb, []⟩
  | step {s t : QState β} : QReach eb cap s → QStep eb cap s t → QReach eb cap t

theorem qreach_invariant {β : Type} (eb : List β) (cap : Nat) (hcap : cap = 0 → eb = []) :
    ∀ s, QReach eb cap s → s.buf.length ≤ cap ∧ (cap = 0 → s.pending = [] ∧ s.buf = []) := by
  intro s h
  induction h with
  | init => exact ⟨by simp, fun hc => ⟨hcap hc, rfl⟩⟩
  | step hr hstep ih =>
    rename_i hreach
    cases hstep with
    | put hput =>
      rename_i b p buf
      rcases hput with hc0 | hlt
      · exact absurd (ih.2 hc0).1 (by simp)
      · refine ⟨?_, ?_⟩
        · simp only [List.length_append, List.length_cons, List.length_nil]
          omega
        · intro hc0
          exact absurd hlt (by omega)
    | get =>
      rename_i b p rest
      have h1 := ih.1
      simp only [List.length_cons] at h1
      refine ⟨by simp only; omega, ?_⟩
      intro hc0
      exact absurd (ih.2 hc0).2 (by simp)
    | newEpoch =>
      rename_i buf
      exact ⟨ih.1, fun hc0 => ⟨hcap hc0, (ih.2 hc0).2⟩⟩

theorem queue_bound_of_capacity {β : Type} (xs : List β) (bs : Nat) (hbs : 0 < bs) :
    ∀ s, QReach (grouper bs xs) (min (2 * ((xs.length + bs - 1) / bs)) 100) s →
      s.buf.length ≤ min (2 * ((xs.length + bs - 1) / bs)) 100 := by
  intro s h
  refine (qreach_invariant _ _ ?_ s h).1
  intro hc0
  have hnb : (xs.length + bs - 1) / bs = 0 := by omega
  have hlt : xs.length + bs - 1 < bs := by
    by_contra hge
    push_neg at hge
    have := Nat.div_le_div_right (c := bs) hge
    rw [Nat.div_self hbs] at this
    omega
  have hlen0 : xs.length = 0 := by omega
  rw [List.length_eq_zero.mp hlen0, grouper_nil]

/-- C9: after a successful construction, each of the two batch queues has
capacity min(2 × batchesPerEpoch, 100) computed from its own split, and —
under the blocking-insert, blocking-remove semantics of the bounded queue —
every reachable queue state holds at most that many pending batches. -/
theorem C9_queue_capacity (dec : Nat → String)
    (shuffle : Nat → List SampleRef → List SampleRef) (samples : List SampleRef)
    (mll : Option Nat) (lc : List (RawLabel × Nat)) (validation : ℚ) (seed : Nat)
    (bs : Nat) (r : InitResult) (hbs : 0 < bs)
    (hinit : trainBatcherInit dec shuffle samples mll lc validation seed bs = .ok r) :
    r.train_maxsize = min (2 * r.n_train_batches) 100 ∧
    r.valid_maxsize = min (2 * r.n_valid_batches) 100 ∧
    (∀ s, QReach (grouper bs r.train_samples) r.train_maxsize s →
      s.buf.length ≤ r.train_maxsize) ∧
    (∀ s, QReach (grouper bs r.valid_samples) r.valid_maxsize s →
      s.buf.length ≤ r.valid_maxsize) := by
  cases hsam : samples.head? with
  | none =>
    rw [trainBatcherInit.eq_def, hsam] at hinit
    exact absurd hinit (by simp)
  | some s0 =>
    rw [trainBatcherInit.eq_def, hsam] at hinit
    cases hpl : process_labels dec lc mll with
    | error e =>
      rw [hpl] at hinit
      exact absurd hinit (by simp)
    | ok z =>
      obtain ⟨enc, decd, cnts⟩ := z
      rw [hpl] at hinit
      simp only at hinit
      have hr := Except.ok.inj hinit
      subst hr
      refine ⟨rfl, rfl, ?_, ?_⟩
      · exact queue_bound_of_capacity _ bs hbs
      · exact queue_bound_of_capacity _ bs hbs

/-- A concrete construction result used by the capacity witness. -/
def sampleInitResult : InitResult :=
  { train_samples := [("s1", "f")]
    valid_samples := [("s2", "f")]
    n_train_batches := 1
    n_valid_batches := 1
    train_maxsize := 2
    valid_maxsize := 2
    label_encoding := [((RawLabel.str "x"), 0)]
    label_decoding := ["x"]
    label_counts := [(0, 1)] }

/-- C9 witness: two samples split in half with batch size one; each queue
gets capacity min(2, 100) = 2 and its occupancy stays at most 2. -/
theorem C9_queue_capacity_witness :
    0 < 1 ∧
    trainBatcherInit (fun _ => "a") (fun _ l => l) [("s1", "f"), ("s2", "f")] (some 10)
        [((RawLabel.str "x"), 1)] (1 / 2) 0 1 = .ok sampleInitResult ∧
    (sampleInitResult.train_maxsize = min (2 * sampleInitResult.n_train_batches) 100 ∧
      sampleInitResult.valid_maxsize = min (2 * sampleInitResult.n_valid_batches) 100 ∧
      (∀ s, QReach (grouper 1 sampleInitResult.train_samples)
          sampleInitResult.train_maxsize s →
        s.buf.length ≤ sampleInitResult.train_maxsize) ∧
      (∀ s, QReach (grouper 1 sampleInitResult.valid_samples)
          sampleInitResult.valid_maxsize s →
        s.buf.length ≤ sampleInitResult.valid_maxsize)) := by
  have hinit : trainBatcherInit (fun _ => "a") (fun _ l => l) [("s1", "f"), ("s2", "f")]
      (some 10) [((RawLabel.str "x"), 1)] (1 / 2) 0 1 = .ok sampleInitResult := by
    have hfl : (⌊(1 - 1 / 2 : ℚ) *
        (([("s1", "f"), ("s2", "f")] : List SampleRef).length : ℚ)⌋).toNat = 1 := by
      norm_num
    simp only [trainBatcherInit, fracSplit, hfl]
    rfl
  exact ⟨by decide, hinit,
    C9_queue_capacity (fun _ => "a") (fun _ l => l) [("s1", "f"), ("s2", "f")] (some 10)
      [((RawLabel.str "x"), 1)] (1 / 2) 0 1 sampleInitResult (by decide) hinit⟩

end Medaka
